import Mathlib

/-
  Verification development for the auditrs repository.

  Shallow embedding of:
  - src/src/parser.rs   (read_to_fields, parse_log_file, ParseError)
  - src/src/record.rs   (RecordType, the u16 conversions, as_audit_str, AuditRecord::to_log)
  - src/src/correlator.rs (AuditRecordCorrelator::correlate_records is todo!() in the
    source, so the correlation behaviour is modelled from the specification, see below)

  Strings are manipulated as lists of characters (String.data); Rust's HashMap of
  String keys to String values is embedded as the extensional map
  List Char -> Option (List Char), which captures exactly the key-value content of
  the hash map and deliberately carries no iteration order, as a Rust HashMap
  carries none.  Whitespace splitting models str::split_whitespace restricted to
  ASCII whitespace characters; every concrete input used below contains only
  ASCII spaces, so the restriction is inessential.
-/

namespace Auditrs

/-- ASCII whitespace test, modelling the character class used by
str::split_whitespace on the inputs of interest. -/
def isWs (c : Char) : Bool :=
  c == ' ' || c == '\t' || c == '\n' || c == '\x0d'

/-- Accumulator-based whitespace splitter: the accumulator holds the current
token reversed.  splitWsAux l acc produces the maximal runs of non-whitespace
characters, modelling line.split_whitespace() in read_to_fields. -/
def splitWsAux : List Char → List Char → List (List Char)
  | [], [] => []
  | [], acc => [acc.reverse]
  | c :: cs, acc =>
    if isWs c then
      match acc with
      | [] => splitWsAux cs []
      | _ :: _ => acc.reverse :: splitWsAux cs []
    else
      splitWsAux cs (c :: acc)

/-- line.split_whitespace() from read_to_fields. -/
def splitWs (l : List Char) : List (List Char) :=
  splitWsAux l []

/-- line.trim().is_empty() from read_to_fields: true exactly when every
character of the line is whitespace. -/
def trimIsEmpty (l : List Char) : Bool :=
  l.all isWs

/-- part.find('=') followed by the two slices part[..eq_pos] and
part[eq_pos + 1..] in read_to_fields: split a token at its first '=' into
key and value; none when the token contains no '='. -/
def splitKV : List Char → Option (List Char × List Char)
  | [] => none
  | c :: cs =>
    if c = '=' then some ([], cs)
    else (splitKV cs).map (fun kv => (c :: kv.1, kv.2))

/-- The field map of a record: the extensional content of the Rust
HashMap of String keys to String values. -/
def Fields : Type := List Char → Option (List Char)

/-- HashMap::new() in read_to_fields. -/
def emptyFields : Fields := fun _ => none

/-- fields.insert(key, value): HashMap::insert replaces any existing value for
the key. -/
def insertField (f : Fields) (k v : List Char) : Fields :=
  fun x => if x = k then some v else f x

/-- ParseError from src/src/parser.rs.  InvalidLine carries the original line
text. -/
inductive ParseError where
  | FileNotFound
  | FailedToReadLine
  | InvalidLine (line : List Char)
deriving DecidableEq, Repr

/-- struct RecordFields from src/src/parser.rs. -/
structure RecordFields where
  fields : Fields

/-- struct Record: parser.rs and its tests use Record::new(fields) as a plain
wrapper around the field hash map (parser.rs line 79: such a Record is
"still just a wrapper around HashMap").  The struct definition itself is not
in src, so the wrapper shape is taken from those uses. -/
structure Record where
  fields : Fields

/-- The token loop of read_to_fields: for each whitespace-separated part,
insert the key=value split at the first '='; skip a lone ":"; fail with
InvalidLine(original line) on any other token lacking '='. -/
def goFields (line : List Char) : List (List Char) → Fields → Except ParseError RecordFields
  | [], f => .ok ⟨f⟩
  | t :: ts, f =>
    match splitKV t with
    | some kv => goFields line ts (insertField f kv.1 kv.2)
    | none =>
      if t = [':'] then goFields line ts f
      else .error (.InvalidLine line)

/-- read_to_fields from src/src/parser.rs: reject a line of pure whitespace,
otherwise run the token loop over the whitespace-split parts. -/
def readToFields (line : List Char) : Except ParseError RecordFields :=
  if trimIsEmpty line then .error (.InvalidLine line)
  else goFields line (splitWs line) emptyFields

/-- parse_to_record from src/src/parser.rs: wrap the fields, cannot fail. -/
def parseToRecord (rf : RecordFields) : Except ParseError Record :=
  .ok ⟨rf.fields⟩

/-- The per-line pipeline of parse_log_file, after the file has been read into
lines: map read_to_fields then parse_to_record over each line and collect.
Rust's collect over an iterator of Results short-circuits, yielding the first
error and discarding everything else. -/
def parseLogLines : List (List Char) → Except ParseError (List Record)
  | [] => .ok []
  | l :: ls =>
    match (readToFields l).bind parseToRecord with
    | .error e => .error e
    | .ok r =>
      match parseLogLines ls with
      | .error e => .error e
      | .ok rs => .ok (r :: rs)

/-- Association-list lookup used to state properties of the parsed field map. -/
def alookup : List (List Char × List Char) → List Char → Option (List Char)
  | [], _ => none
  | kv :: rest, k => if kv.1 = k then some kv.2 else alookup rest k

/-- The key=value pairs of a line, in token order: each whitespace-separated
token split at its first '=' (tokens without '=' contribute nothing). -/
def linePairs (line : List Char) : List (List Char × List Char) :=
  (splitWs line).filterMap splitKV

/-- Whether an Except value is Ok. -/
def isOkE {ε α : Type} : Except ε α → Bool
  | .ok _ => true
  | .error _ => false

/-- Field lookup through an Except-wrapped parse result. -/
def fieldOf (x : Except ParseError RecordFields) (k : List Char) : Option (List Char) :=
  match x with
  | .ok rf => rf.fields k
  | .error _ => none

/-- enum RecordType from src/src/record.rs: every named kernel record category
plus the Unknown fallback retaining the numeric code (a u16, embedded as Nat). -/
inductive RecordType where
  | GetStatus | SetStatus | List | Add | Del | User | Login
  | WatchInsert | WatchRemove | WatchList | SignalInfo
  | AddRule | DelRule | ListRules | Trim | MakeEquiv
  | TtyGet | TtySet | SetFeature | GetFeature
  | FirstUserMsg | UserAvc | UserTty | LastUserMsg
  | DaemonStart | DaemonEnd | DaemonAbort | DaemonConfig
  | Syscall | Path | Ipc | Socketcall | ConfigChange | Sockaddr | Cwd | Execve
  | IpcSetPerm | MqOpen | MqSendRecv | MqNotify | MqGetSetAttr | KernelOther
  | FdPair | ObjPid | Tty | Eoe | BprmFcaps | Capset | Mmap
  | NetfilterPkt | NetfilterCfg | Seccomp | Proctitle | FeatureChange
  | Replace | KernModule | Fanotify | TimeInjOffset | TimeAdjNtpVal
  | Bpf | EventListener
  | Avc | SelinuxErr | AvcPath | MacPolicyLoad | MacStatus | MacConfigChange
  | MacUnlblAllow | MacCipsoV4Add | MacCipsoV4Del | MacMapAdd | MacMapDel
  | MacIpsecEvent | MacUnlblStcAdd | MacUnlblStcDel | MacCalipsoAdd
  | MacCalipsoDel | MacTaskContexts | MacObjContexts
  | AnomalyPromiscuous | AnomalyAbend | AnomalyLink | AnomalyCreat
  | IntegrityData | IntegrityMetadata | IntegrityStatus | IntegrityHash
  | IntegrityPcr | IntegrityRule | IntegrityEvmXattr | IntegrityPolicyRule
  | CryptoKeyUser
  | Unknown (code : Nat)
deriving Repr

/-- Arms of impl From u16 for RecordType from src/src/record.rs, part 0:
control, user, daemon and the first kernel arms, in source order. -/
def codeTablePart0 : List (Nat × RecordType) :=
  [(1000, .GetStatus),
   (1001, .SetStatus),
   (1002, .List),
   (1003, .Add),
   (1004, .Del),
   (1005, .User),
   (1006, .Login),
   (1007, .WatchInsert),
   (1008, .WatchRemove),
   (1009, .WatchList),
   (1010, .SignalInfo),
   (1011, .AddRule),
   (1012, .DelRule),
   (1013, .ListRules),
   (1014, .Trim),
   (1015, .MakeEquiv),
   (1016, .TtyGet),
   (1017, .TtySet),
   (1018, .SetFeature),
   (1019, .GetFeature),
   (1100, .FirstUserMsg),
   (1107, .UserAvc),
   (1124, .UserTty),
   (1199, .LastUserMsg),
   (1200, .DaemonStart),
   (1201, .DaemonEnd),
   (1202, .DaemonAbort),
   (1203, .DaemonConfig),
   (1300, .Syscall),
   (1302, .Path),
   (1303, .Ipc),
   (1304, .Socketcall)]

/-- Arms of impl From u16 for RecordType from src/src/record.rs, part 1:
the remaining kernel, SELinux and MAC arms, in source order. -/
def codeTablePart1 : List (Nat × RecordType) :=
  [(1305, .ConfigChange),
   (1306, .Sockaddr),
   (1307, .Cwd),
   (1309, .Execve),
   (1311, .IpcSetPerm),
   (1312, .MqOpen),
   (1313, .MqSendRecv),
   (1314, .MqNotify),
   (1315, .MqGetSetAttr),
   (1316, .KernelOther),
   (1317, .FdPair),
   (1318, .ObjPid),
   (1319, .Tty),
   (1320, .Eoe),
   (1321, .BprmFcaps),
   (1322, .Capset),
   (1323, .Mmap),
   (1324, .NetfilterPkt),
   (1325, .NetfilterCfg),
   (1326, .Seccomp),
   (1327, .Proctitle),
   (1328, .FeatureChange),
   (1329, .Replace),
   (1330, .KernModule),
   (1331, .Fanotify),
   (1332, .TimeInjOffset),
   (1333, .TimeAdjNtpVal),
   (1334, .Bpf),
   (1335, .EventListener),
   (1400, .Avc),
   (1401, .SelinuxErr),
   (1402, .AvcPath)]

/-- Arms of impl From u16 for RecordType from src/src/record.rs, part 2:
the anomaly, integrity and legacy arms, in source order. -/
def codeTablePart2 : List (Nat × RecordType) :=
  [(1403, .MacPolicyLoad),
   (1404, .MacStatus),
   (1405, .MacConfigChange),
   (1406, .MacUnlblAllow),
   (1407, .MacCipsoV4Add),
   (1408, .MacCipsoV4Del),
   (1409, .MacMapAdd),
   (1410, .MacMapDel),
   (1415, .MacIpsecEvent),
   (1416, .MacUnlblStcAdd),
   (1417, .MacUnlblStcDel),
   (1418, .MacCalipsoAdd),
   (1419, .MacCalipsoDel),
   (1420, .MacTaskContexts),
   (1421, .MacObjContexts),
   (1700, .AnomalyPromiscuous),
   (1701, .AnomalyAbend),
   (1702, .AnomalyLink),
   (1703, .AnomalyCreat),
   (1800, .IntegrityData),
   (1801, .IntegrityMetadata),
   (1802, .IntegrityStatus),
   (1803, .IntegrityHash),
   (1804, .IntegrityPcr),
   (1805, .IntegrityRule),
   (1806, .IntegrityEvmXattr),
   (1807, .IntegrityPolicyRule),
   (2000, .CryptoKeyUser)]

/-- The full arm list of impl From u16 for RecordType from src/src/record.rs:
each listed numeric code paired with its named variant, in source order. -/
def codeTable : List (Nat × RecordType) :=
  codeTablePart0 ++ codeTablePart1 ++ codeTablePart2

namespace RecordType

/-- RecordType::as_audit_str from src/src/record.rs. -/
def asAuditStr : RecordType → String
  | GetStatus => "GET_STATUS"
  | SetStatus => "SET_STATUS"
  | List => "LIST"
  | Add => "ADD"
  | Del => "DEL"
  | User => "USER"
  | Login => "LOGIN"
  | WatchInsert => "WATCH_INSERT"
  | WatchRemove => "WATCH_REMOVE"
  | WatchList => "WATCH_LIST"
  | SignalInfo => "SIGNAL_INFO"
  | AddRule => "ADD_RULE"
  | DelRule => "DEL_RULE"
  | ListRules => "LIST_RULES"
  | Trim => "TRIM"
  | MakeEquiv => "MAKE_EQUIV"
  | TtyGet => "TTY_GET"
  | TtySet => "TTY_SET"
  | SetFeature => "SET_FEATURE"
  | GetFeature => "GET_FEATURE"
  | FirstUserMsg => "USER_FIRST_MSG"
  | UserAvc => "USER_AVC"
  | UserTty => "USER_TTY"
  | LastUserMsg => "USER_LAST_MSG"
  | DaemonStart => "DAEMON_START"
  | DaemonEnd => "DAEMON_END"
  | DaemonAbort => "DAEMON_ABORT"
  | DaemonConfig => "DAEMON_CONFIG"
  | Syscall => "SYSCALL"
  | Path => "PATH"
  | Ipc => "IPC"
  | Socketcall => "SOCKETCALL"
  | ConfigChange => "CONFIG_CHANGE"
  | Sockaddr => "SOCKADDR"
  | Cwd => "CWD"
  | Execve => "EXECVE"
  | IpcSetPerm => "IPC_SET_PERM"
  | MqOpen => "MQ_OPEN"
  | MqSendRecv => "MQ_SEND_RECV"
  | MqNotify => "MQ_NOTIFY"
  | MqGetSetAttr => "MQ_GETSETATTR"
  | KernelOther => "KERNEL_OTHER"
  | FdPair => "FD_PAIR"
  | ObjPid => "OBJ_PID"
  | Tty => "TTY"
  | Eoe => "EOE"
  | BprmFcaps => "BPRM_FCAPS"
  | Capset => "CAPSET"
  | Mmap => "MMAP"
  | NetfilterPkt => "NETFILTER_PKT"
  | NetfilterCfg => "NETFILTER_CFG"
  | Seccomp => "SECCOMP"
  | Proctitle => "PROCTITLE"
  | FeatureChange => "FEATURE_CHANGE"
  | Replace => "REPLACE"
  | KernModule => "KERN_MODULE"
  | Fanotify => "FANOTIFY"
  | TimeInjOffset => "TIME_INJ_OFFSET"
  | TimeAdjNtpVal => "TIME_ADJ_NTP_VAL"
  | Bpf => "BPF"
  | EventListener => "EVENT_LISTENER"
  | Avc => "AVC"
  | SelinuxErr => "SELINUX_ERR"
  | AvcPath => "AVC_PATH"
  | MacPolicyLoad => "MAC_POLICY_LOAD"
  | MacStatus => "MAC_STATUS"
  | MacConfigChange => "MAC_CONFIG_CHANGE"
  | MacUnlblAllow => "MAC_UNLBL_ALLOW"
  | MacCipsoV4Add => "MAC_CIPSO_V4_ADD"
  | MacCipsoV4Del => "MAC_CIPSO_V4_DEL"
  | MacMapAdd => "MAC_MAP_ADD"
  | MacMapDel => "MAC_MAP_DEL"
  | MacIpsecEvent => "MAC_IPSEC_EVENT"
  | MacUnlblStcAdd => "MAC_UNLBL_STC_ADD"
  | MacUnlblStcDel => "MAC_UNLBL_STC_DEL"
  | MacCalipsoAdd => "MAC_CALIPSO_ADD"
  | MacCalipsoDel => "MAC_CALIPSO_DEL"
  | MacTaskContexts => "MAC_TASK_CONTEXTS"
  | MacObjContexts => "MAC_OBJ_CONTEXTS"
  | AnomalyPromiscuous => "ANOM_PROMISCUOUS"
  | AnomalyAbend => "ANOM_ABEND"
  | AnomalyLink => "ANOM_LINK"
  | AnomalyCreat => "ANOM_CREAT"
  | IntegrityData => "INTEGRITY_DATA"
  | IntegrityMetadata => "INTEGRITY_METADATA"
  | IntegrityStatus => "INTEGRITY_STATUS"
  | IntegrityHash => "INTEGRITY_HASH"
  | IntegrityPcr => "INTEGRITY_PCR"
  | IntegrityRule => "INTEGRITY_RULE"
  | IntegrityEvmXattr => "INTEGRITY_EVM_XATTR"
  | IntegrityPolicyRule => "INTEGRITY_POLICY_RULE"
  | CryptoKeyUser => "CRYPTO_KEY_USER"
  | Unknown _ => "UNKNOWN"

/-- impl From u16 for RecordType from src/src/record.rs: the Rust match on the
numeric code selects the arm for the listed code, and every unlisted code
falls through to Unknown(code).  The match on distinct literals is embedded
as a first-match scan of the arm list. -/
def fromU16 (value : Nat) : RecordType :=
  match codeTable.find? (fun p => decide (p.1 = value)) with
  | some p => p.2
  | none => Unknown value

/-- impl From RecordType for u16 from src/src/record.rs. -/
def toU16 : RecordType → Nat
  | GetStatus => 1000
  | SetStatus => 1001
  | List => 1002
  | Add => 1003
  | Del => 1004
  | User => 1005
  | Login => 1006
  | WatchInsert => 1007
  | WatchRemove => 1008
  | WatchList => 1009
  | SignalInfo => 1010
  | AddRule => 1011
  | DelRule => 1012
  | ListRules => 1013
  | Trim => 1014
  | MakeEquiv => 1015
  | TtyGet => 1016
  | TtySet => 1017
  | SetFeature => 1018
  | GetFeature => 1019
  | FirstUserMsg => 1100
  | UserAvc => 1107
  | UserTty => 1124
  | LastUserMsg => 1199
  | DaemonStart => 1200
  | DaemonEnd => 1201
  | DaemonAbort => 1202
  | DaemonConfig => 1203
  | Syscall => 1300
  | Path => 1302
  | Ipc => 1303
  | Socketcall => 1304
  | ConfigChange => 1305
  | Sockaddr => 1306
  | Cwd => 1307
  | Execve => 1309
  | IpcSetPerm => 1311
  | MqOpen => 1312
  | MqSendRecv => 1313
  | MqNotify => 1314
  | MqGetSetAttr => 1315
  | KernelOther => 1316
  | FdPair => 1317
  | ObjPid => 1318
  | Tty => 1319
  | Eoe => 1320
  | BprmFcaps => 1321
  | Capset => 1322
  | Mmap => 1323
  | NetfilterPkt => 1324
  | NetfilterCfg => 1325
  | Seccomp => 1326
  | Proctitle => 1327
  | FeatureChange => 1328
  | Replace => 1329
  | KernModule => 1330
  | Fanotify => 1331
  | TimeInjOffset => 1332
  | TimeAdjNtpVal => 1333
  | Bpf => 1334
  | EventListener => 1335
  | Avc => 1400
  | SelinuxErr => 1401
  | AvcPath => 1402
  | MacPolicyLoad => 1403
  | MacStatus => 1404
  | MacConfigChange => 1405
  | MacUnlblAllow => 1406
  | MacCipsoV4Add => 1407
  | MacCipsoV4Del => 1408
  | MacMapAdd => 1409
  | MacMapDel => 1410
  | MacIpsecEvent => 1415
  | MacUnlblStcAdd => 1416
  | MacUnlblStcDel => 1417
  | MacCalipsoAdd => 1418
  | MacCalipsoDel => 1419
  | MacTaskContexts => 1420
  | MacObjContexts => 1421
  | AnomalyPromiscuous => 1700
  | AnomalyAbend => 1701
  | AnomalyLink => 1702
  | AnomalyCreat => 1703
  | IntegrityData => 1800
  | IntegrityMetadata => 1801
  | IntegrityStatus => 1802
  | IntegrityHash => 1803
  | IntegrityPcr => 1804
  | IntegrityRule => 1805
  | IntegrityEvmXattr => 1806
  | IntegrityPolicyRule => 1807
  | CryptoKeyUser => 2000
  | Unknown v => v

end RecordType

/-- struct AuditRecord from src/src/record.rs: a record type plus the raw
message data text. -/
structure AuditRecord where
  recordType : RecordType
  data : String
deriving Repr

/-- AuditRecord::to_log from src/src/record.rs:
format of "type=", the symbolic type string, " msg=", and the data. -/
def AuditRecord.toLog (r : AuditRecord) : String :=
  "type=" ++ r.recordType.asAuditStr ++ " msg=" ++ r.data

/-- Modelled from the spec: the legacy line-per-record textual rendering of a
record, with the exact layout of the type token, the msg token, and the
key=value fields in order, each separated by one space (section 6 of the
spec; the concrete rendering in the repository, AuditLogWriter, is todo!()
in src/src/writer.rs). -/
def renderLegacyLine (sym msg : String) (fields : List (String × String)) : String :=
  "type=" ++ sym ++ " msg=" ++ msg ++
    String.join (fields.map (fun kv => " " ++ kv.1 ++ "=" ++ kv.2))

namespace Correlator

/-
  The body of AuditRecordCorrelator::correlate_records in src/src/correlator.rs
  is todo!(), and the struct holds no keyed open set or timeout yet, so the
  correlation behaviour below is modelled from the specification, sections 3,
  4.3 and 5: a keyed open set of PendingEvents, per-record append with closing
  heuristics evaluated on the just-appended record, a timeout sweep, and a
  shutdown flush.  The numeric thresholds follow the comment block at the top
  of correlator.rs together with the kernel codes of record.rs: AUDIT_EOE is
  1320, AUDIT_PROCTITLE is 1327, AUDIT_KERNEL is 2000, AUDIT_FIRST_EVENT is
  1300, AUDIT_FIRST_ANOM_MSG is 1700, and the MAC single-record range is 1406
  to 1419.
-/

/-- Modelled from the spec (section 3): the closed_reason tags of an emitted
AuditEvent. -/
inductive CloseReason where
  | EndOfEvent
  | ProctitleTerminal
  | KernelSingleRecord
  | BelowFirstEventThreshold
  | AtOrAboveFirstAnomalyThreshold
  | MacSingleRecordRange
  | Timeout
  | Shutdown
deriving DecidableEq, Repr

/-- Modelled from the spec (section 3): an AuditRecord as the correlation
engine consumes it, with its record-type code, its timestamp of epoch seconds
and sub-second part, its correlation serial, and its payload text. -/
structure SpecAuditRecord where
  rtype : Nat
  sec : Nat
  subsec : Nat
  serial : Nat
  payload : String
deriving DecidableEq, Repr

/-- Modelled from the spec (section 3): CorrelationKey is the pair of the
timestamp and the serial. -/
def corrKey (r : SpecAuditRecord) : Nat × Nat × Nat :=
  (r.sec, r.subsec, r.serial)

/-- Modelled from the spec (section 4.3) and the comment block of
correlator.rs: the closing heuristics, evaluated on the just-appended
record's numeric type code, in the listed order; none when no heuristic
closes the event. -/
def closingReason (c : Nat) : Option CloseReason :=
  if c = 1320 then some .EndOfEvent
  else if c = 1327 then some .ProctitleTerminal
  else if c = 2000 then some .KernelSingleRecord
  else if c < 1300 then some .BelowFirstEventThreshold
  else if 1700 ≤ c then some .AtOrAboveFirstAnomalyThreshold
  else if 1406 ≤ c ∧ c ≤ 1419 then some .MacSingleRecordRange
  else none

/-- Modelled from the spec (section 3): the in-progress accumulation for one
correlation key, with its records in arrival order and the instant a record
last arrived for it. -/
structure PendingEvent where
  key : Nat × Nat × Nat
  records : List SpecAuditRecord
  lastSeen : Nat
deriving DecidableEq, Repr

/-- Modelled from the spec (section 3): a finished event, immutable once
constructed. -/
structure SpecAuditEvent where
  key : Nat × Nat × Nat
  records : List SpecAuditRecord
  closedReason : CloseReason
deriving DecidableEq, Repr

/-- The accumulated records the open set holds for one key, used both by the
model and the statements about it. -/
def pendingRecordsOf (st : List PendingEvent) (k : Nat × Nat × Nat) : List SpecAuditRecord :=
  (st.filter (fun p => decide (p.key = k))).flatMap (·.records)

/-- Modelled from the spec (section 4.3, step 2, the present-key half): append
the record to a PendingEvent when it holds the record's key, refreshing
last_seen; leave any other PendingEvent unchanged. -/
def updatePending (now : Nat) (r : SpecAuditRecord) (k : Nat × Nat × Nat)
    (p : PendingEvent) : PendingEvent :=
  if p.key = k then { p with records := p.records ++ [r], lastSeen := now } else p

/-- Modelled from the spec (section 4.3, step 2): if the record's key is
absent from the open set, create a new PendingEvent with this record as its
sole member; otherwise append the record to the existing PendingEvent and
refresh last_seen. -/
def appendRecord (now : Nat) (st : List PendingEvent) (r : SpecAuditRecord) :
    List PendingEvent :=
  if (st.find? (fun p => decide (p.key = corrKey r))).isSome then
    st.map (updatePending now r (corrKey r))
  else
    st ++ [⟨corrKey r, [r], now⟩]

/-- The open-set well-formedness the engine maintains: at most one
PendingEvent per key (spec section 3, first invariant). -/
def keysNodup (st : List PendingEvent) : Prop :=
  (st.map (·.key)).Nodup

/-- Every record accumulated under a pending key carries that key. -/
def stInv (st : List PendingEvent) : Prop :=
  ∀ p ∈ st, ∀ r ∈ p.records, corrKey r = p.key

/-- Every record of an emitted event carries the event's key. -/
def outInv (out : List SpecAuditEvent) : Prop :=
  ∀ e ∈ out, ∀ r ∈ e.records, corrKey r = e.key

/-- Modelled from the spec (section 4.3, steps 1 to 4): ingest one record;
when a closing heuristic fires on the just-appended record, remove the key's
PendingEvent from the open set and emit an AuditEvent carrying its
accumulated records in arrival order, tagged with the matching reason. -/
def ingest (now : Nat) (st : List PendingEvent) (r : SpecAuditRecord) :
    List PendingEvent × Option SpecAuditEvent :=
  match closingReason r.rtype with
  | some rsn =>
    ((appendRecord now st r).filter (fun p => decide (¬ p.key = corrKey r)),
     some ⟨corrKey r, pendingRecordsOf (appendRecord now st r) (corrKey r), rsn⟩)
  | none => (appendRecord now st r, none)

/-- Modelled from the spec: run the ingestion state machine over a batch of
records, accumulating the emitted events in order. -/
def processRecords : List PendingEvent → List SpecAuditEvent → List SpecAuditRecord →
    List PendingEvent × List SpecAuditEvent
  | st, out, [] => (st, out)
  | st, out, r :: rs =>
    match ingest 0 st r with
    | (st1, some e) => processRecords st1 (out ++ [e]) rs
    | (st1, none) => processRecords st1 out rs

/-- Modelled from the spec (section 5): on shutdown every still-open
PendingEvent is flushed as a closed AuditEvent with reason Shutdown. -/
def flushAll (st : List PendingEvent) : List SpecAuditEvent :=
  st.map (fun p => ⟨p.key, p.records, .Shutdown⟩)

/-- Modelled from the spec: AuditRecordCorrelator::correlate_records, whose
body is todo!() in src/src/correlator.rs.  The batch of records is driven
through the keyed state machine of section 4.3 and the still-open events are
flushed at the end per section 5, so that no record is silently dropped. -/
def correlateRecords (input : List SpecAuditRecord) : List SpecAuditEvent :=
  (processRecords [] [] input).2 ++ flushAll (processRecords [] [] input).1

/-- Modelled from the spec (section 4.3): the timeout sweep.  Scan the open
set; every PendingEvent whose idle time now - last_seen exceeds
end_of_event_timeout is removed and emitted as a partial AuditEvent tagged
Timeout; the sweep consumes no input record. -/
def sweepTimeout (now timeout : Nat) (st : List PendingEvent) :
    List PendingEvent × List SpecAuditEvent :=
  (st.filter (fun p => decide (¬ timeout < now - p.lastSeen)),
   (st.filter (fun p => decide (timeout < now - p.lastSeen))).map
     (fun p => ⟨p.key, p.records, .Timeout⟩))

/-- The records of the events emitted for one key, across an event list. -/
def eventsRecordsOf (out : List SpecAuditEvent) (k : Nat × Nat × Nat) :
    List SpecAuditRecord :=
  (out.filter (fun e => decide (e.key = k))).flatMap (·.records)

end Correlator

/-
  Theorems.  Shared helper lemmas come first; the claim theorems, witnesses
  and counterexamples follow, one theorem per claim plus the required
  witnesses and counterexamples.
-/

/-- Every arm of the code table converts back: the numeric conversion of the
named variant of each arm is the arm's code. -/
theorem codeTable_toCode : ∀ p ∈ codeTable, RecordType.toU16 p.2 = p.1 := by
  decide

/-- Claim C3: for every u16 code c, converting c to a RecordType and back to
a u16 yields c again, for all 65536 codes; codes with no named variant map
through Unknown(c), whose conversion returns c exactly.  Both directions are
total Lean functions by construction, as the Rust From impls are total. -/
theorem c3_code_roundtrip (c : Nat) (h : c < 65536) :
    RecordType.toU16 (RecordType.fromU16 c) = c ∧
    RecordType.toU16 (RecordType.Unknown c) = c := by
  refine ⟨?_, rfl⟩
  unfold RecordType.fromU16
  rcases hf : codeTable.find? (fun p => decide (p.1 = c)) with _ | p
  · simp only [hf]
    rfl
  · have hmem : p ∈ codeTable := List.mem_of_find?_eq_some hf
    have hp : p.1 = c := by simpa using List.find?_some hf
    simp only [hf]
    rw [codeTable_toCode p hmem, hp]

/-- Witness for C3 at the unlisted code 1234 and the listed code 1300. -/
theorem c3_code_roundtrip_witness :
    RecordType.toU16 (RecordType.fromU16 1234) = 1234 ∧
    RecordType.toU16 (RecordType.fromU16 1300) = 1300 :=
  ⟨(c3_code_roundtrip 1234 (by decide)).1, (c3_code_roundtrip 1300 (by decide)).1⟩

/-- Claim C9: as_audit_str on Unknown(c) is the constant "UNKNOWN" whatever
the code, so to_log renders identical text for any two unknown codes with the
same payload data: the legacy rendering does not preserve the numeric code. -/
theorem c9_unknown_render (c1 c2 : Nat) (d : String) :
    RecordType.asAuditStr (RecordType.Unknown c1) = "UNKNOWN" ∧
    AuditRecord.toLog ⟨RecordType.Unknown c1, d⟩ =
      AuditRecord.toLog ⟨RecordType.Unknown c2, d⟩ :=
  ⟨rfl, rfl⟩

/-- Claim C10: a token containing '=' is split at the first '=' only: the key
is the text before it and the value is the entire remainder, which may itself
contain further '=' characters; the token loop then records exactly that
key-value pair. -/
theorem c10_split_first_eq (k v : List Char) (h : '=' ∉ k) :
    splitKV (k ++ '=' :: v) = some (k, v) ∧
    ∀ (line : List Char) (f : Fields),
      goFields line [k ++ '=' :: v] f = Except.ok ⟨insertField f k v⟩ := by
  have h1 : splitKV (k ++ '=' :: v) = some (k, v) := by
    induction k with
    | nil => simp [splitKV]
    | cons c cs ih =>
      have hc : ¬ c = '=' := by
        intro hh
        exact h (by simp [hh])
      have hcs : '=' ∉ cs := fun hh => h (List.mem_cons_of_mem _ hh)
      simp [splitKV, hc, ih hcs]
  refine ⟨h1, fun line f => ?_⟩
  simp [goFields, h1]

/-- Witness for C10 on the token a=b=c: key a, value b=c. -/
theorem c10_split_first_eq_witness :
    splitKV (("a").data ++ '=' :: ("b=c").data) = some (("a").data, ("b=c").data) :=
  (c10_split_first_eq ("a").data ("b=c").data (by decide)).1

/-- A token has no '=' exactly when splitKV finds nothing to split. -/
theorem splitKV_eq_none (t : List Char) : splitKV t = none ↔ '=' ∉ t := by
  induction t with
  | nil => simp [splitKV]
  | cons c cs ih =>
    by_cases hc : c = '='
    · subst hc
      simp [splitKV]
    · have hcs : ('=' ∈ c :: cs) ↔ ('=' ∈ cs) := by
        simp [List.mem_cons, Ne.symm hc]
      simp only [splitKV, if_neg hc, Option.map_eq_none', ih, hcs]

/-- A token contains '=' exactly when splitKV splits it. -/
theorem splitKV_isSome (t : List Char) : (splitKV t).isSome = true ↔ '=' ∈ t := by
  cases h : splitKV t with
  | none => simpa [h] using (splitKV_eq_none t).mp h
  | some kv =>
    simp only [h, Option.isSome_some, true_iff]
    by_contra hni
    have : splitKV t = none := (splitKV_eq_none t).mpr hni
    rw [h] at this
    cases this

/-- Tokens produced by the whitespace splitter contain no whitespace. -/
theorem splitWsAux_tokens (l : List Char) :
    ∀ acc : List Char, (∀ c ∈ acc, isWs c = false) →
      ∀ t ∈ splitWsAux l acc, ∀ c ∈ t, isWs c = false := by
  induction l with
  | nil =>
    intro acc hacc t ht c hc
    cases acc with
    | nil => cases ht
    | cons a as =>
      simp only [splitWsAux, List.mem_singleton] at ht
      subst ht
      exact hacc c (List.mem_reverse.mp hc)
  | cons x xs ih =>
    intro acc hacc t ht c hc
    by_cases hw : isWs x = true
    · cases acc with
      | nil =>
        simp only [splitWsAux, hw, if_true] at ht
        exact ih [] (by simp) t ht c hc
      | cons a as =>
        simp only [splitWsAux, hw, if_true, List.mem_cons] at ht
        rcases ht with ht | ht
        · subst ht
          exact hacc c (List.mem_reverse.mp hc)
        · exact ih [] (by simp) t ht c hc
    · simp only [splitWsAux, hw, if_false] at ht
      refine ih (x :: acc) ?_ t ht c hc
      intro c' hc'
      rcases List.mem_cons.mp hc' with h | h
      · subst h
        simpa using hw
      · exact hacc c' h

/-- A line of pure whitespace splits into no tokens. -/
theorem splitWsAux_all_ws (l : List Char) (h : ∀ c ∈ l, isWs c = true) :
    splitWsAux l [] = [] := by
  induction l with
  | nil => rfl
  | cons c cs ih =>
    have hw : isWs c = true := h c (by simp)
    simp only [splitWsAux, hw, if_true]
    exact ih fun c' hc' => h c' (List.mem_cons_of_mem _ hc')

/-- A line with at least one token is not all whitespace. -/
theorem mem_splitWs_trim (line t : List Char) (ht : t ∈ splitWs line) :
    trimIsEmpty line = false := by
  cases htr : trimIsEmpty line with
  | false => rfl
  | true =>
    exfalso
    simp only [trimIsEmpty] at htr
    have hall : ∀ c ∈ line, isWs c = true := List.all_eq_true.mp htr
    have hnil : splitWsAux line [] = [] := splitWsAux_all_ws line hall
    simp only [splitWs] at ht
    rw [hnil] at ht
    cases ht

/-- The token loop fails with InvalidLine carrying the original line whenever
some token is neither a lone colon nor a key=value token. -/
theorem goFields_error (line : List Char) :
    ∀ (ts : List (List Char)) (f : Fields) (t : List Char),
      t ∈ ts → t ≠ [':'] → splitKV t = none →
      goFields line ts f = .error (.InvalidLine line) := by
  intro ts
  induction ts with
  | nil =>
    intro f t ht
    cases ht
  | cons t0 ts ih =>
    intro f t ht hne hkv
    rcases List.mem_cons.mp ht with h0 | h0
    · subst h0
      simp [goFields, hkv, hne]
    · cases hk0 : splitKV t0 with
      | some kv =>
        simp only [goFields, hk0]
        exact ih _ t h0 hne hkv
      | none =>
        by_cases hcolon : t0 = [':']
        · subst hcolon
          have hstep : goFields line ([':'] :: ts) f = goFields line ts f := by
            simp [goFields, hk0]
          rw [hstep]
          exact ih _ t h0 hne hkv
        · simp [goFields, hk0, hcolon]

/-- The token loop succeeds whenever every token is a lone colon or a
key=value token. -/
theorem goFields_ok (line : List Char) :
    ∀ (ts : List (List Char)) (f : Fields),
      (∀ t ∈ ts, t = [':'] ∨ (splitKV t).isSome = true) →
      ∃ rf, goFields line ts f = .ok rf := by
  intro ts
  induction ts with
  | nil =>
    intro f _
    exact ⟨⟨f⟩, rfl⟩
  | cons t0 ts ih =>
    intro f hgood
    cases hk0 : splitKV t0 with
    | some kv =>
      simp only [goFields, hk0]
      exact ih _ fun t ht => hgood t (List.mem_cons_of_mem _ ht)
    | none =>
      rcases hgood t0 (by simp) with hcolon | hsome
      · subst hcolon
        have hstep : goFields line ([':'] :: ts) f = goFields line ts f := by
          simp [goFields, hk0]
        rw [hstep]
        exact ih _ fun t ht => hgood t (List.mem_cons_of_mem _ ht)
      · rw [hk0] at hsome
        cases hsome

/-- Lookup distributes over append, preferring the left list. -/
theorem alookup_append (l1 l2 : List (List Char × List Char)) (k : List Char) :
    alookup (l1 ++ l2) k = (alookup l1 k).or (alookup l2 k) := by
  induction l1 with
  | nil => simp [alookup]
  | cons kv l1 ih =>
    by_cases hk : kv.1 = k
    · simp [alookup, hk]
    · simp [alookup, hk, ih]

/-- A successful lookup comes from a pair of the list. -/
theorem alookup_eq_some_mem {l : List (List Char × List Char)} {k v : List Char}
    (h : alookup l k = some v) : (k, v) ∈ l := by
  induction l with
  | nil => cases h
  | cons kv l ih =>
    by_cases hk : kv.1 = k
    · simp only [alookup, if_pos hk] at h
      have hkv : kv = (k, v) := by
        cases kv
        simp_all
      rw [hkv]
      exact List.mem_cons_self _ _
    · simp only [alookup, if_neg hk] at h
      exact List.mem_cons_of_mem _ (ih h)

/-- A pair of the list makes the lookup of its key succeed. -/
theorem mem_alookup_isSome {l : List (List Char × List Char)} {k v : List Char}
    (h : (k, v) ∈ l) : (alookup l k).isSome = true := by
  induction l with
  | nil => cases h
  | cons kv l ih =>
    by_cases hk : kv.1 = k
    · simp [alookup, hk]
    · rcases List.mem_cons.mp h with h0 | h0
      · subst h0
        exact absurd rfl hk
      · simp [alookup, hk, ih h0]

/-- The master characterisation of the token loop's field map: a successful
run binds each key to the value of the last key=value token for it, falling
back to the initial map; this is exactly HashMap::insert's replace-on-repeat
behaviour folded over the tokens. -/
theorem goFields_ok_lookup (line : List Char) :
    ∀ (ts : List (List Char)) (f : Fields) (rf : RecordFields),
      goFields line ts f = .ok rf →
      ∀ k, rf.fields k = (alookup (ts.filterMap splitKV).reverse k).or (f k) := by
  intro ts
  induction ts with
  | nil =>
    intro f rf h k
    cases h
    simp [alookup]
  | cons t ts ih =>
    intro f rf h k
    cases hkv : splitKV t with
    | some kv =>
      simp only [goFields, hkv] at h
      have hrec := ih _ rf h k
      rw [hrec]
      simp only [List.filterMap_cons, hkv, List.reverse_cons]
      rw [alookup_append, Option.or_assoc]
      by_cases hk : kv.1 = k
      · simp [alookup, hk, insertField, Option.or]
      · have hk2 : ¬ k = kv.1 := fun hh => hk hh.symm
        simp [alookup, hk, hk2, insertField]
    | none =>
      by_cases hcolon : t = [':']
      · subst hcolon
        have hstep : goFields line ([':'] :: ts) f = goFields line ts f := by
          simp [goFields, hkv]
        rw [hstep] at h
        have hrec := ih _ rf h k
        rw [hrec]
        simp [List.filterMap_cons, hkv]
      · simp [goFields, hkv, hcolon] at h

/-- The field map of a successfully parsed line binds each key to the value
of the last key=value token with that key. -/
theorem readToFields_ok_lookup (line : List Char) (rf : RecordFields)
    (h : readToFields line = .ok rf) (k : List Char) :
    rf.fields k = alookup (linePairs line).reverse k := by
  unfold readToFields at h
  by_cases htr : trimIsEmpty line
  · rw [if_pos htr] at h
    cases h
  · rw [if_neg htr] at h
    have := goFields_ok_lookup line (splitWs line) emptyFields rf h k
    rw [this]
    simp [linePairs, emptyFields, Option.or_none]

/-- Claim C8: a whitespace-separated token that is exactly ":" is skipped
without error, any other token lacking '=' makes read_to_fields fail with
InvalidLine carrying the original line, and in particular the Scenario D
line type=SYSCALL syscall yields InvalidLine. -/
theorem c8_colon_skip_invalid :
    (∀ line t : List Char, t ∈ splitWs line → t ≠ [':'] → '=' ∉ t →
        readToFields line = .error (.InvalidLine line)) ∧
    (∀ line : List Char, trimIsEmpty line = false →
        (∀ t ∈ splitWs line, t = [':'] ∨ '=' ∈ t) →
        ∃ rf, readToFields line = .ok rf) ∧
    readToFields ("type=SYSCALL syscall").data =
      .error (.InvalidLine ("type=SYSCALL syscall").data) := by
  refine ⟨?_, ?_, rfl⟩
  · intro line t ht hne heq
    have htr := mem_splitWs_trim line t ht
    unfold readToFields
    rw [htr]
    simp only [Bool.false_eq_true, if_false]
    exact goFields_error line (splitWs line) emptyFields t ht hne
      ((splitKV_eq_none t).mpr heq)
  · intro line htr hgood
    unfold readToFields
    rw [htr]
    simp only [Bool.false_eq_true, if_false]
    refine goFields_ok line (splitWs line) emptyFields fun t ht => ?_
    rcases hgood t ht with h | h
    · exact Or.inl h
    · exact Or.inr ((splitKV_isSome t).mpr h)

/-- Witness for C8: the line a=1 b fails with InvalidLine on the token b,
while the line x=1 : parses, its lone colon skipped. -/
theorem c8_colon_skip_invalid_witness :
    readToFields ("a=1 b").data = .error (.InvalidLine ("a=1 b").data) ∧
    ∃ rf, readToFields ("x=1 :").data = .ok rf :=
  ⟨c8_colon_skip_invalid.1 ("a=1 b").data ("b").data (by decide) (by decide) (by decide),
   c8_colon_skip_invalid.2.1 ("x=1 :").data (by decide) (by decide)⟩

/-- Counterexample for C7: this well-formed legacy line carries the quoted
value "a b" with embedded whitespace for the key comm, and read_to_fields
fails with InvalidLine on it instead of keeping the token as one key=value
pair, because whitespace splitting happens before any quote handling. -/
theorem c7_counterexample :
    readToFields ("type=SYSCALL msg=audit(1364481363.243:24287): comm=\"a b\"").data =
      .error (.InvalidLine
        ("type=SYSCALL msg=audit(1364481363.243:24287): comm=\"a b\"").data) :=
  rfl

/-- Claim C7 amended: the parser tokenizes on whitespace with no quote
awareness, so no token it processes ever retains an embedded whitespace
character; a double-quoted value containing whitespace is therefore always
split across tokens rather than kept as one key=value pair. -/
theorem c7_tokens_never_keep_ws (line t : List Char) (c : Char)
    (ht : t ∈ splitWs line) (hc : c ∈ t) : isWs c = false :=
  splitWsAux_tokens line [] (by simp) t ht c hc

/-- Witness for C7 on the line x="a b": the fragment token x="a keeps no
whitespace. -/
theorem c7_tokens_never_keep_ws_witness : isWs 'a' = false :=
  c7_tokens_never_keep_ws ("x=\"a b\"").data ("x=\"a").data 'a' (by decide) (by decide)

/-- Counterexample for C6: the line type=SYSCALL a=1 a=2 repeats the key a,
yet read_to_fields succeeds (there is no DuplicateField variant in
ParseError) and the second value silently overwrites the first. -/
theorem c6_counterexample :
    isOkE (readToFields ("type=SYSCALL a=1 a=2").data) = true ∧
    fieldOf (readToFields ("type=SYSCALL a=1 a=2").data) (("a").data) =
      some (("2").data) :=
  ⟨rfl, rfl⟩

/-- Claim C6 amended: a duplicate key is not an error: the parser succeeds
and the field map binds every key to the value of the last key=value token
with that key (HashMap::insert overwrites), and the map carries no insertion
order at all, being a hash map. -/
theorem c6_duplicate_last_wins (line : List Char) (rf : RecordFields)
    (h : readToFields line = .ok rf) (k : List Char) :
    rf.fields k = alookup (linePairs line).reverse k :=
  readToFields_ok_lookup line rf h k

/-- Witness for C6 on the duplicate line a=1 a=2. -/
theorem c6_duplicate_last_wins_witness :
    (RecordFields.mk (insertField (insertField emptyFields ("a").data ("1").data)
        ("a").data ("2").data)).fields (("a").data) =
      alookup (linePairs ("a=1 a=2").data).reverse (("a").data) :=
  c6_duplicate_last_wins ("a=1 a=2").data _ rfl (("a").data)

/-- Counterexample for C5: a well-formed raw record line in the exact legacy
layout whose quoted exe value embeds whitespace; read_to_fields rejects it
with InvalidLine, so parse-then-render cannot round-trip it. -/
theorem c5_counterexample :
    readToFields (renderLegacyLine "SYSCALL" "audit(1364481363.243:24287):"
        [("exe", "\"/bin/my tool\"")]).data =
      .error (.InvalidLine (renderLegacyLine "SYSCALL" "audit(1364481363.243:24287):"
        [("exe", "\"/bin/my tool\"")]).data) :=
  rfl

/-- Claim C5 amended: for every line the parser accepts, the parse preserves
the field set up to last-occurrence wins: a key is bound exactly when some
token splits to it, and every binding's value is the value of one of the
line's key=value tokens; rendering parsed records back to legacy text is
unimplemented in the repository, and well-formed lines whose quoted values
embed whitespace are rejected, so the exact round trip of the claim fails. -/
theorem c5_fieldset (line : List Char) (rf : RecordFields)
    (h : readToFields line = .ok rf) (k : List Char) :
    ((rf.fields k).isSome = true ↔ ∃ t ∈ splitWs line, ∃ v, splitKV t = some (k, v)) ∧
    ∀ v, rf.fields k = some v → ∃ t ∈ splitWs line, splitKV t = some (k, v) := by
  have hm := readToFields_ok_lookup line rf h k
  constructor
  · constructor
    · intro hs
      rw [hm] at hs
      obtain ⟨v, hv⟩ := Option.isSome_iff_exists.mp hs
      have hmem := List.mem_reverse.mp (alookup_eq_some_mem hv)
      obtain ⟨t, htm, hts⟩ := List.mem_filterMap.mp hmem
      exact ⟨t, htm, v, hts⟩
    · rintro ⟨t, htm, v, htv⟩
      rw [hm]
      exact mem_alookup_isSome (List.mem_reverse.mpr
        (List.mem_filterMap.mpr ⟨t, htm, htv⟩))
  · intro v hv
    rw [hm] at hv
    have hmem := List.mem_reverse.mp (alookup_eq_some_mem hv)
    obtain ⟨t, htm, hts⟩ := List.mem_filterMap.mp hmem
    exact ⟨t, htm, hts⟩

/-- Witness for C5 on the line a=1: the key a is bound. -/
theorem c5_fieldset_witness :
    ((RecordFields.mk (insertField emptyFields ("a").data ("1").data)).fields
      (("a").data)).isSome = true :=
  ((c5_fieldset ("a=1").data _ rfl (("a").data)).1).mpr
    ⟨("a=1").data, by decide, ("1").data, by decide⟩

/-- Counterexample for C4: one malformed middle line makes parse_log_file
return only that line's error; the parse results of the surrounding
well-formed lines a=1 and b=2 are not produced. -/
theorem c4_counterexample :
    parseLogLines [("a=1").data, ("syscall").data, ("b=2").data] =
      .error (.InvalidLine ("syscall").data) :=
  rfl

/-- Claim C4 amended: parse_log_file is not per-line recoverable: collecting
the per-line Results short-circuits, so the whole call returns the error of
the first malformed line and no well-formed line's record is produced;
only the per-line function read_to_fields is independent across lines. -/
theorem c4_first_error_aborts (pre : List (List Char)) (bad : List Char)
    (rest : List (List Char)) (e : ParseError)
    (hpre : ∀ l ∈ pre, isOkE (readToFields l) = true)
    (hbad : readToFields bad = .error e) :
    parseLogLines (pre ++ bad :: rest) = .error e := by
  induction pre with
  | nil =>
    simp [parseLogLines, hbad, Except.bind]
  | cons l pre ih =>
    have hl := hpre l (by simp)
    cases hh : readToFields l with
    | error e' =>
      rw [hh] at hl
      cases hl
    | ok rf =>
      have hrec := ih fun l' hl' => hpre l' (List.mem_cons_of_mem _ hl')
      simp [parseLogLines, hh, Except.bind, parseToRecord, hrec]

/-- Witness for C4: a good line followed by a bad one yields the bad line's
error. -/
theorem c4_first_error_aborts_witness :
    parseLogLines ([("x=1").data] ++ ("bad").data :: []) =
      .error (.InvalidLine ("bad").data) :=
  c4_first_error_aborts [("x=1").data] ("bad").data [] (.InvalidLine ("bad").data)
    (by decide) rfl

namespace Correlator

/-- updatePending never changes the key of a PendingEvent. -/
theorem updatePending_key (now : Nat) (r : SpecAuditRecord) (k : Nat × Nat × Nat)
    (p : PendingEvent) : (updatePending now r k p).key = p.key := by
  unfold updatePending
  by_cases h : p.key = k <;> simp [h]

/-- updatePending is the identity on PendingEvents of other keys. -/
theorem updatePending_ne (now : Nat) (r : SpecAuditRecord) (k : Nat × Nat × Nat)
    (p : PendingEvent) (h : p.key ≠ k) : updatePending now r k p = p := by
  simp [updatePending, h]

/-- updatePending appends the record on the PendingEvent of its key. -/
theorem updatePending_records (now : Nat) (r : SpecAuditRecord) (k : Nat × Nat × Nat)
    (p : PendingEvent) (h : p.key = k) :
    (updatePending now r k p).records = p.records ++ [r] := by
  simp [updatePending, h]

/-- The records held for a key distribute over open-set append. -/
theorem pendingRecordsOf_append (st st2 : List PendingEvent) (k : Nat × Nat × Nat) :
    pendingRecordsOf (st ++ st2) k = pendingRecordsOf st k ++ pendingRecordsOf st2 k := by
  simp [pendingRecordsOf, List.filter_append, List.flatMap_append]

/-- Unfolding the records held for a key over a cons cell. -/
theorem pendingRecordsOf_cons (p : PendingEvent) (st : List PendingEvent)
    (k : Nat × Nat × Nat) :
    pendingRecordsOf (p :: st) k =
      if p.key = k then p.records ++ pendingRecordsOf st k else pendingRecordsOf st k := by
  by_cases h : p.key = k <;> simp [pendingRecordsOf, List.filter_cons, h]

/-- An open set without the key holds no records for it. -/
theorem pendingRecordsOf_no_key (st : List PendingEvent) (k : Nat × Nat × Nat)
    (h : ∀ p ∈ st, p.key ≠ k) : pendingRecordsOf st k = [] := by
  have hnil : st.filter (fun p => decide (p.key = k)) = [] :=
    List.filter_eq_nil_iff.mpr (fun p hp => by simp [h p hp])
  unfold pendingRecordsOf
  rw [hnil]
  rfl

/-- Updating at one key leaves the records held for any other key unchanged. -/
theorem pendingRecordsOf_map_update_ne (now : Nat) (r : SpecAuditRecord)
    (k k' : Nat × Nat × Nat) (st : List PendingEvent) (hne : k' ≠ k) :
    pendingRecordsOf (st.map (updatePending now r k)) k' = pendingRecordsOf st k' := by
  induction st with
  | nil => rfl
  | cons p st ih =>
    rw [List.map_cons, pendingRecordsOf_cons, pendingRecordsOf_cons, updatePending_key]
    by_cases hp : p.key = k'
    · have hid : updatePending now r k p = p :=
        updatePending_ne _ _ _ _ (by rw [hp]; exact hne)
      rw [if_pos hp, if_pos hp, ih, hid]
    · rw [if_neg hp, if_neg hp, ih]

/-- With at most one PendingEvent per key, updating at a present key appends
the record to the records held for that key. -/
theorem pendingRecordsOf_map_update_eq (now : Nat) (r : SpecAuditRecord)
    (k : Nat × Nat × Nat) (st : List PendingEvent) (hnd : keysNodup st)
    (hfind : (st.find? (fun p => decide (p.key = k))).isSome = true) :
    pendingRecordsOf (st.map (updatePending now r k)) k =
      pendingRecordsOf st k ++ [r] := by
  induction st with
  | nil => simp at hfind
  | cons p st ih =>
    have hnd1 := List.nodup_cons.mp hnd
    rw [List.map_cons, pendingRecordsOf_cons, pendingRecordsOf_cons, updatePending_key]
    by_cases hp : p.key = k
    · have hnk : ∀ q ∈ st, q.key ≠ k := by
        intro q hq hqk
        refine hnd1.1 ?_
        show p.key ∈ st.map (fun x => x.key)
        rw [hp, ← hqk]
        exact List.mem_map.mpr ⟨q, hq, rfl⟩
      have htail : pendingRecordsOf st k = [] := pendingRecordsOf_no_key st k hnk
      have htail2 : pendingRecordsOf (st.map (updatePending now r k)) k = [] := by
        refine pendingRecordsOf_no_key _ k fun q hq => ?_
        obtain ⟨q0, hq0, rfl⟩ := List.mem_map.mp hq
        rw [updatePending_key]
        exact hnk q0 hq0
      rw [if_pos hp, if_pos hp, htail, htail2, updatePending_records now r k p hp]
      simp
    · rw [if_neg hp, if_neg hp]
      refine ih hnd1.2 ?_
      rwa [List.find?_cons_of_neg _ (by simp [hp])] at hfind

/-- Ingesting a record appends it to the records held for its key. -/
theorem appendRecord_pend_eq (now : Nat) (st : List PendingEvent)
    (r : SpecAuditRecord) (hnd : keysNodup st) :
    pendingRecordsOf (appendRecord now st r) (corrKey r) =
      pendingRecordsOf st (corrKey r) ++ [r] := by
  unfold appendRecord
  by_cases hf : (st.find? (fun p => decide (p.key = corrKey r))).isSome = true
  · rw [if_pos hf]
    exact pendingRecordsOf_map_update_eq now r _ st hnd hf
  · rw [if_neg hf, pendingRecordsOf_append]
    have hone : pendingRecordsOf [⟨corrKey r, [r], now⟩] (corrKey r) = [r] := by
      simp [pendingRecordsOf]
    rw [hone]

/-- Ingesting a record leaves the records held for other keys unchanged. -/
theorem appendRecord_pend_ne (now : Nat) (st : List PendingEvent)
    (r : SpecAuditRecord) (k' : Nat × Nat × Nat) (hne : k' ≠ corrKey r) :
    pendingRecordsOf (appendRecord now st r) k' = pendingRecordsOf st k' := by
  unfold appendRecord
  by_cases hf : (st.find? (fun p => decide (p.key = corrKey r))).isSome = true
  · rw [if_pos hf]
    exact pendingRecordsOf_map_update_ne now r _ k' st hne
  · rw [if_neg hf, pendingRecordsOf_append]
    have hone : pendingRecordsOf [⟨corrKey r, [r], now⟩] k' = [] := by
      simp [pendingRecordsOf, List.filter_cons, Ne.symm hne]
    rw [hone, List.append_nil]

/-- Ingesting a record keeps the open set one-per-key. -/
theorem appendRecord_nodup (now : Nat) (st : List PendingEvent)
    (r : SpecAuditRecord) (hnd : keysNodup st) :
    keysNodup (appendRecord now st r) := by
  unfold appendRecord
  by_cases hf : (st.find? (fun p => decide (p.key = corrKey r))).isSome = true
  · rw [if_pos hf]
    unfold keysNodup
    have : (st.map (updatePending now r (corrKey r))).map (fun p => p.key)
        = st.map (fun p => p.key) := by
      rw [List.map_map]
      exact List.map_congr_left fun p _ => updatePending_key now r _ p
    rw [this]
    exact hnd
  · rw [if_neg hf]
    unfold keysNodup
    rw [List.map_append, List.nodup_append]
    refine ⟨hnd, by simp, ?_⟩
    intro a ha ha2
    simp only [List.map_cons, List.map_nil, List.mem_singleton] at ha2
    subst ha2
    obtain ⟨p, hp, hpk⟩ := List.mem_map.mp ha
    have hnone : st.find? (fun p => decide (p.key = corrKey r)) = none := by
      cases hh : st.find? (fun p => decide (p.key = corrKey r)) with
      | none => rfl
      | some q =>
        rw [hh] at hf
        exact absurd rfl hf
    have := List.find?_eq_none.mp hnone p hp
    simp only [decide_eq_true_eq] at this
    exact this hpk

/-- Erasing a key leaves no records held for it. -/
theorem pendingRecordsOf_erase_self (st : List PendingEvent) (k : Nat × Nat × Nat) :
    pendingRecordsOf (st.filter (fun p => decide (¬ p.key = k))) k = [] := by
  refine pendingRecordsOf_no_key _ k fun p hp => ?_
  have := (List.mem_filter.mp hp).2
  simpa using this

/-- Erasing a key leaves the records held for any other key unchanged. -/
theorem pendingRecordsOf_erase_ne (st : List PendingEvent) (k k' : Nat × Nat × Nat)
    (hne : k' ≠ k) :
    pendingRecordsOf (st.filter (fun p => decide (¬ p.key = k))) k' =
      pendingRecordsOf st k' := by
  unfold pendingRecordsOf
  rw [List.filter_filter]
  congr 1
  refine List.filter_congr fun p _ => ?_
  by_cases hp : p.key = k'
  · have h2 : ¬ p.key = k := by rw [hp]; exact hne
    simp [hp, h2, hne]
  · simp [hp]

/-- Any filtering of the open set keeps it one-per-key. -/
theorem filter_keysNodup (st : List PendingEvent) (q : PendingEvent → Bool)
    (hnd : keysNodup st) : keysNodup (st.filter q) := by
  unfold keysNodup at hnd ⊢
  exact ((List.filter_sublist st).map (fun p => p.key)).nodup hnd

/-- The records of the events of one key distribute over event-list append. -/
theorem eventsRecordsOf_append (out out2 : List SpecAuditEvent) (k : Nat × Nat × Nat) :
    eventsRecordsOf (out ++ out2) k = eventsRecordsOf out k ++ eventsRecordsOf out2 k := by
  simp [eventsRecordsOf, List.filter_append, List.flatMap_append]

/-- The records of the events of one key over a single event. -/
theorem eventsRecordsOf_singleton (e : SpecAuditEvent) (k : Nat × Nat × Nat) :
    eventsRecordsOf [e] k = if e.key = k then e.records else [] := by
  by_cases h : e.key = k <;> simp [eventsRecordsOf, List.filter_cons, h]

/-- Flushing the open set emits, for each key, exactly the records held for
that key. -/
theorem eventsRecordsOf_flushAll (st : List PendingEvent) (k : Nat × Nat × Nat) :
    eventsRecordsOf (flushAll st) k = pendingRecordsOf st k := by
  unfold eventsRecordsOf flushAll pendingRecordsOf
  rw [List.filter_map, List.flatMap_map]
  rfl

/-- The central bookkeeping invariant of the state machine: after processing a
batch, the records already emitted for a key followed by the records still
pending for it are exactly the prior such records followed by the batch's
records of that key, in arrival order. -/
theorem processRecords_pend (rs : List SpecAuditRecord) :
    ∀ (st : List PendingEvent) (out : List SpecAuditEvent), keysNodup st →
      ∀ k, eventsRecordsOf (processRecords st out rs).2 k ++
            pendingRecordsOf (processRecords st out rs).1 k
        = eventsRecordsOf out k ++ pendingRecordsOf st k ++
            rs.filter (fun r0 => decide (corrKey r0 = k)) := by
  induction rs with
  | nil =>
    intro st out hnd k
    simp [processRecords]
  | cons r rs ih =>
    intro st out hnd k
    cases hcl : closingReason r.rtype with
    | some rsn =>
      have hstep : processRecords st out (r :: rs) =
          processRecords
            ((appendRecord 0 st r).filter (fun p => decide (¬ p.key = corrKey r)))
            (out ++ [⟨corrKey r, pendingRecordsOf (appendRecord 0 st r) (corrKey r), rsn⟩])
            rs := by
        simp [processRecords, ingest, hcl]
      rw [hstep]
      have hnd1 : keysNodup (appendRecord 0 st r) := appendRecord_nodup 0 st r hnd
      have hnd2 := filter_keysNodup (appendRecord 0 st r)
        (fun p => decide (¬ p.key = corrKey r)) hnd1
      rw [ih _ _ hnd2 k, eventsRecordsOf_append, eventsRecordsOf_singleton]
      by_cases hk : corrKey r = k
      · subst hk
        rw [pendingRecordsOf_erase_self, appendRecord_pend_eq 0 st r hnd]
        simp [List.filter_cons, List.append_assoc]
      · have hk2 : k ≠ corrKey r := fun hh => hk hh.symm
        rw [pendingRecordsOf_erase_ne _ _ _ hk2, appendRecord_pend_ne 0 st r k hk2]
        simp [List.filter_cons, hk]
    | none =>
      have hstep : processRecords st out (r :: rs) =
          processRecords (appendRecord 0 st r) out rs := by
        simp [processRecords, ingest, hcl]
      rw [hstep]
      have hnd1 : keysNodup (appendRecord 0 st r) := appendRecord_nodup 0 st r hnd
      rw [ih _ _ hnd1 k]
      by_cases hk : corrKey r = k
      · subst hk
        rw [appendRecord_pend_eq 0 st r hnd]
        simp [List.filter_cons, List.append_assoc]
      · have hk2 : k ≠ corrKey r := fun hh => hk hh.symm
        rw [appendRecord_pend_ne 0 st r k hk2]
        simp [List.filter_cons, hk]

/-- Grouping is purely by key: across any interleaving, the events emitted for
key k carry exactly the input records of key k, in arrival order. -/
theorem correlateRecords_filter (input : List SpecAuditRecord) (k : Nat × Nat × Nat) :
    eventsRecordsOf (correlateRecords input) k =
      input.filter (fun r => decide (corrKey r = k)) := by
  unfold correlateRecords
  rw [eventsRecordsOf_append, eventsRecordsOf_flushAll]
  have h := processRecords_pend input [] [] (by simp [keysNodup]) k
  simpa [eventsRecordsOf, pendingRecordsOf] using h

/-- Records held for key k all carry key k, given the open-set invariant. -/
theorem mem_pendingRecordsOf (st : List PendingEvent) (k : Nat × Nat × Nat)
    (r : SpecAuditRecord) (hst : stInv st) (h : r ∈ pendingRecordsOf st k) :
    corrKey r = k := by
  unfold pendingRecordsOf at h
  obtain ⟨p, hp, hr⟩ := List.mem_flatMap.mp h
  have hp1 := (List.mem_filter.mp hp).1
  have hp2 := of_decide_eq_true (List.mem_filter.mp hp).2
  rw [← hp2]
  exact hst p hp1 r hr

/-- The append step preserves the record-key invariant of the open set. -/
theorem stInv_appendRecord (now : Nat) (st : List PendingEvent) (r : SpecAuditRecord)
    (hst : stInv st) : stInv (appendRecord now st r) := by
  unfold appendRecord
  by_cases hf : (st.find? (fun p => decide (p.key = corrKey r))).isSome = true
  · rw [if_pos hf]
    intro p hp r' hr'
    obtain ⟨q, hq, rfl⟩ := List.mem_map.mp hp
    by_cases hqk : q.key = corrKey r
    · rw [updatePending_records now r _ q hqk] at hr'
      rw [updatePending_key]
      rcases List.mem_append.mp hr' with h0 | h0
      · exact hst q hq r' h0
      · rw [List.mem_singleton.mp h0, hqk]
    · have hid := updatePending_ne now r _ q hqk
      rw [hid] at hr' ⊢
      exact hst q hq r' hr'
  · rw [if_neg hf]
    intro p hp r' hr'
    rcases List.mem_append.mp hp with h0 | h0
    · exact hst p h0 r' hr'
    · rw [List.mem_singleton.mp h0] at hr' ⊢
      have hr2 : r' = r := List.mem_singleton.mp hr'
      rw [hr2]

/-- Filtering the open set preserves the record-key invariant. -/
theorem stInv_filter (st : List PendingEvent) (q : PendingEvent → Bool)
    (hst : stInv st) : stInv (st.filter q) := fun p hp =>
  hst p (List.mem_filter.mp hp).1

/-- The state machine preserves the record-key invariants of the open set and
of the emitted events. -/
theorem processRecords_inv (rs : List SpecAuditRecord) :
    ∀ (st : List PendingEvent) (out : List SpecAuditEvent),
      stInv st → outInv out →
      stInv (processRecords st out rs).1 ∧ outInv (processRecords st out rs).2 := by
  induction rs with
  | nil =>
    intro st out hst hout
    exact ⟨hst, hout⟩
  | cons r rs ih =>
    intro st out hst hout
    cases hcl : closingReason r.rtype with
    | some rsn =>
      have hstep : processRecords st out (r :: rs) =
          processRecords
            ((appendRecord 0 st r).filter (fun p => decide (¬ p.key = corrKey r)))
            (out ++ [⟨corrKey r, pendingRecordsOf (appendRecord 0 st r) (corrKey r), rsn⟩])
            rs := by
        simp [processRecords, ingest, hcl]
      rw [hstep]
      refine ih _ _ (stInv_filter _ _ (stInv_appendRecord 0 st r hst)) ?_
      intro e he r' hr'
      rcases List.mem_append.mp he with h0 | h0
      · exact hout e h0 r' hr'
      · rw [List.mem_singleton.mp h0] at hr' ⊢
        exact mem_pendingRecordsOf _ _ r' (stInv_appendRecord 0 st r hst) hr'
    | none =>
      have hstep : processRecords st out (r :: rs) =
          processRecords (appendRecord 0 st r) out rs := by
        simp [processRecords, ingest, hcl]
      rw [hstep]
      exact ih _ _ (stInv_appendRecord 0 st r hst) hout

/-- Every record of every emitted event carries the event's key. -/
theorem correlateRecords_outInv (input : List SpecAuditRecord) :
    outInv (correlateRecords input) := by
  have h := processRecords_inv input [] []
    (fun p hp => absurd hp (List.not_mem_nil p))
    (fun e he => absurd he (List.not_mem_nil e))
  unfold correlateRecords
  intro e he r hr
  rcases List.mem_append.mp he with h0 | h0
  · exact h.2 e h0 r hr
  · obtain ⟨p, hp, rfl⟩ := List.mem_map.mp h0
    exact h.1 p hp r hr

/-- Events of other keys contribute no copies of a record of key K, so the
per-key restriction does not change its count. -/
theorem count_events_filter (out : List SpecAuditEvent) (K : Nat × Nat × Nat)
    (r : SpecAuditRecord) (hk : corrKey r = K) (hinv : outInv out) :
    ((out.filter (fun e => decide (e.key = K))).flatMap (fun e => e.records)).count r =
      (out.flatMap (fun e => e.records)).count r := by
  induction out with
  | nil => rfl
  | cons e out ih =>
    have hinv2 : outInv out := fun e' he' => hinv e' (List.mem_cons_of_mem _ he')
    by_cases he : e.key = K
    · rw [List.filter_cons, if_pos (by simp [he]), List.flatMap_cons, List.flatMap_cons,
        List.count_append, List.count_append, ih hinv2]
    · rw [List.filter_cons, if_neg (by simp [he]), List.flatMap_cons,
        List.count_append, ih hinv2]
      have hzero : e.records.count r = 0 := by
        rw [List.count_eq_zero]
        intro hmem
        refine he ?_
        rw [← hinv e (List.mem_cons_self e out) r hmem]
        exact hk
      omega

/-- No record is lost or duplicated: across all emitted events, every input
record appears exactly as often as in the input. -/
theorem correlateRecords_count (input : List SpecAuditRecord) (r : SpecAuditRecord) :
    ((correlateRecords input).flatMap (fun e => e.records)).count r = input.count r := by
  have hfilter := correlateRecords_filter input (corrKey r)
  have hinv := correlateRecords_outInv input
  have h1 : input.count r =
      (input.filter (fun r0 => decide (corrKey r0 = corrKey r))).count r :=
    (List.count_filter (by simp)).symm
  rw [h1, ← hfilter]
  unfold eventsRecordsOf
  exact (count_events_filter _ _ r rfl hinv).symm

/-- Counterexample for C1: in this interleaving of the two keys
(100,100,5) and (100,100,6), an end-of-event record for key (100,100,5)
closes that key's event, and a later record with the same key starts a fresh
event; the first emitted event therefore does not contain all the input
records sharing its key (the record with payload c shares the key but is not
among the event's records), refuting the claim as stated. -/
theorem c1_counterexample :
    ((correlateRecords
        [⟨1320, 100, 100, 5, "a"⟩, ⟨1300, 100, 100, 6, "b"⟩,
         ⟨1320, 100, 100, 5, "c"⟩, ⟨1320, 100, 100, 6, "d"⟩])[0]? =
      some ⟨(100, 100, 5), [⟨1320, 100, 100, 5, "a"⟩], CloseReason.EndOfEvent⟩) ∧
    (⟨1320, 100, 100, 5, "c"⟩ : SpecAuditRecord) ∈
      [⟨1320, 100, 100, 5, "a"⟩, ⟨1300, 100, 100, 6, "b"⟩,
       ⟨1320, 100, 100, 5, "c"⟩, ⟨1320, 100, 100, 6, "d"⟩] ∧
    corrKey ⟨1320, 100, 100, 5, "c"⟩ = (100, 100, 5) ∧
    (⟨1320, 100, 100, 5, "c"⟩ : SpecAuditRecord) ∉
      [(⟨1320, 100, 100, 5, "a"⟩ : SpecAuditRecord)] := by
  decide

/-- Claim C1 amended: for any finite input sequence with records of multiple
keys arbitrarily interleaved, every emitted event's records all share the
event's key and appear in arrival order; the events emitted for a key
partition that key's records, in order, into the segments delimited by
closing records; and every input record appears in exactly one emitted event
(its count across all emitted events equals its input count).  Only when a
key recurs after its event has closed is that key's record set split over
more than one event, which is what the counterexample exhibits. -/
theorem c1_grouping (input : List SpecAuditRecord) :
    (∀ e ∈ correlateRecords input, ∀ r ∈ e.records, corrKey r = e.key) ∧
    (∀ k, eventsRecordsOf (correlateRecords input) k =
        input.filter (fun r => decide (corrKey r = k))) ∧
    (∀ r, ((correlateRecords input).flatMap (fun e => e.records)).count r =
        input.count r) :=
  ⟨correlateRecords_outInv input, correlateRecords_filter input,
   correlateRecords_count input⟩

/-- Witness for C1 on the Scenario A stream (SYSCALL, CWD, PATH, PROCTITLE of
one key): the proctitle record of the single emitted event carries the
event's key. -/
theorem c1_grouping_witness :
    corrKey ⟨1327, 100, 100, 5, "t"⟩ = (100, 100, 5) :=
  (c1_grouping [⟨1300, 100, 100, 5, "s"⟩, ⟨1307, 100, 100, 5, "w"⟩,
      ⟨1302, 100, 100, 5, "p"⟩, ⟨1327, 100, 100, 5, "t"⟩]).1
    ⟨(100, 100, 5),
     [⟨1300, 100, 100, 5, "s"⟩, ⟨1307, 100, 100, 5, "w"⟩,
      ⟨1302, 100, 100, 5, "p"⟩, ⟨1327, 100, 100, 5, "t"⟩],
     CloseReason.ProctitleTerminal⟩
    (by decide) ⟨1327, 100, 100, 5, "t"⟩ (by decide)

/-- Claim C2: every PendingEvent whose idle time now minus last_seen exceeds
the configured end_of_event_timeout is removed from the open set by the sweep
and emitted as an AuditEvent with closed_reason Timeout; the sweep consumes
no input record, so this holds with zero further input. -/
theorem c2_timeout_sweep (st : List PendingEvent) (now timeout : Nat)
    (p : PendingEvent) (hmem : p ∈ st) (hidle : timeout < now - p.lastSeen) :
    p ∉ (sweepTimeout now timeout st).1 ∧
    (⟨p.key, p.records, CloseReason.Timeout⟩ : SpecAuditEvent) ∈
      (sweepTimeout now timeout st).2 := by
  unfold sweepTimeout
  constructor
  · intro hin
    have h2 := (List.mem_filter.mp hin).2
    simp only [decide_eq_true_eq] at h2
    exact h2 hidle
  · refine List.mem_map.mpr ⟨p, ?_, rfl⟩
    exact List.mem_filter.mpr ⟨hmem, decide_eq_true hidle⟩

/-- Witness for C2: a single pending event last seen at 40, swept at 100 with
timeout 30, is removed and emitted with reason Timeout. -/
theorem c2_timeout_sweep_witness :
    (⟨(100, 100, 5), [⟨1300, 100, 100, 5, "s"⟩], 40⟩ : PendingEvent) ∉
      (sweepTimeout 100 30 [⟨(100, 100, 5), [⟨1300, 100, 100, 5, "s"⟩], 40⟩]).1 ∧
    (⟨(100, 100, 5), [⟨1300, 100, 100, 5, "s"⟩], CloseReason.Timeout⟩ : SpecAuditEvent) ∈
      (sweepTimeout 100 30 [⟨(100, 100, 5), [⟨1300, 100, 100, 5, "s"⟩], 40⟩]).2 :=
  c2_timeout_sweep _ 100 30 _ (by decide) (by decide)

end Correlator

end Auditrs
